import Mathlib

/-!
Verification of the debate orchestration and synthesis-parsing core of the
Multi-AI-Chat backend.

The development shallowly embeds:
  * the wire-level streaming client (`backend/services/litellm_client.py`,
    `_stream_chat_completions` / `stream_chat_completion` / `get_chat_completion`),
  * the synthesis text parser (`backend/services/synthesis.py`, `_parse_synthesis`),
  * the per-member streaming unit and the debate session manager
    (`backend/services/orchestrator.py`, `_stream_model_response` /
    `run_council_debate`), with the fan-in drain loop modelled as a small-step
    transition system over an explicit shared queue.

Stateful behaviour (database writes, the shared `asyncio.Queue`) is modelled by
explicit state passing; fallible calls are modelled with `Option`/`Except`.
-/

namespace MultiAIChat

/-! ## Definitions: the shallow embedding of the program -/

inductive Interleaving {α : Type} : List (List α) → List α → List (List α) → Prop where
  | refl (ls : List (List α)) : Interleaving ls [] ls
  | snoc {ls : List (List α)} {out : List α} {rem : List (List α)}
      (i : Nat) (e : α) (rest : List α) :
      Interleaving ls out rem → rem.get? i = some (e :: rest) →
      Interleaving ls (out ++ [e]) (rem.set i rest)

def IsMerge {α : Type} (ls : List (List α)) (out : List α) : Prop :=
  ∃ rem, Interleaving ls out rem ∧ ∀ l ∈ rem, l = []

inductive SSELine where
  | nonData (raw : String)
  | dataDone
  | dataMalformed
  | dataNoContent
  | dataContent (c : String)
deriving DecidableEq, Repr

inductive WireResponse where
  | statusError (code : Nat)
  | otherError (msg : String)
  | body (lines : List SSELine)
  | bodyThenError (lines : List SSELine) (msg : String)
deriving DecidableEq, Repr

/-- The chunk sequence produced by iterating the SSE lines of a 2xx body:
non-data lines are skipped, `[DONE]` breaks the loop, JSON decode errors are
skipped (`continue`), and only non-empty delta contents are yielded. -/
def processLines : List SSELine → List String
  | [] => []
  | .nonData _ :: rest => processLines rest
  | .dataDone :: _ => []
  | .dataMalformed :: rest => processLines rest
  | .dataNoContent :: rest => processLines rest
  | .dataContent c :: rest => c :: processLines rest

/-- `LiteLLMClient._stream_chat_completions`: the generator never raises; every
failure of the underlying HTTP call is converted into a final error-text chunk
(`except httpx.HTTPStatusError` / `except Exception` both `yield` a string). -/
def streamChatCompletions : WireResponse → List String
  | .statusError code => ["\n[Error: HTTP " ++ toString code ++ "]"]
  | .otherError msg => ["\n[Error: " ++ msg ++ "]"]
  | .body lines => processLines lines
  | .bodyThenError lines msg => processLines lines ++ ["\n[Error: " ++ msg ++ "]"]

/-- `LiteLLMClient.stream_chat_completion` with MCP disabled (the chairman call
and any council member without an `mcp_config`): it delegates to
`_stream_chat_completions` unchanged. -/
def stream_chat_completion (resp : WireResponse) : List String :=
  streamChatCompletions resp

/-- `LiteLLMClient.get_chat_completion`: accumulates `full_response += chunk`
over the streaming generator and returns the buffer. -/
def get_chat_completion (resp : WireResponse) : String :=
  (stream_chat_completion resp).foldl (fun full_response chunk => full_response ++ chunk) ""

/-- Order-preserving concatenation of a chunk sequence, defined independently
of the fold in `get_chat_completion`. -/
def concatChunks : List String → String
  | [] => ""
  | c :: cs => c ++ concatChunks cs

/-- Python `str.strip()` whitespace class (ASCII part). -/
def pyWS (c : Char) : Bool :=
  c == ' ' || c == '\t' || c == '\n' || c == '\r' || c == '\x0b' || c == '\x0c'

/-- Python `str.strip()`. -/
def pyStrip (l : List Char) : List Char :=
  ((l.dropWhile pyWS).reverse.dropWhile pyWS).reverse

/-- Python `str.split("\n")`: `""` yields `[""]`, a trailing newline yields a
trailing empty line. -/
def splitLines : List Char → List (List Char)
  | [] => [[]]
  | c :: rest =>
    if c = '\n' then [] :: splitLines rest
    else
      match splitLines rest with
      | [] => [[c]]
      | l :: ls => (c :: l) :: ls

/-- Python `item.split(":", 1)`: the part before the first colon, and the part
after it when a colon occurs. -/
def splitFirstColon : List Char → List Char × Option (List Char)
  | [] => ([], none)
  | c :: rest =>
    if c = ':' then ([], some rest)
    else
      let r := splitFirstColon rest
      (c :: r.1, r.2)

/-- The value of `current_section` in `_parse_synthesis` (`None` /
`"consensus"` / `"debates"` / `"synthesis"`). -/
inductive SynSection where
  | nosec
  | consensus
  | debates
  | synthesis
deriving DecidableEq, Repr

/-- One entry of the `debates` list: `{"topic": ..., "positions": ...}`. -/
structure DebateItem where
  topic : String
  positions : String
deriving DecidableEq, Repr

/-- The loop state of `_parse_synthesis`. -/
structure ParseState where
  currentSection : SynSection
  consensus_items : List String
  debates : List DebateItem
  synthesis_lines : List (List Char)
deriving DecidableEq, Repr

def initParseState : ParseState := ⟨.nosec, [], [], []⟩

/-- The body of the `for line in lines` loop of `_parse_synthesis`. -/
def parseStep (st : ParseState) (line : List Char) : ParseState :=
  let line_stripped := pyStrip line
  if "CONSENSUS".toList.isPrefixOf (line_stripped.map Char.toUpper) then
    { st with currentSection := .consensus }
  else if "DEBATES".toList.isPrefixOf (line_stripped.map Char.toUpper) then
    { st with currentSection := .debates }
  else if "SYNTHESIS".toList.isPrefixOf (line_stripped.map Char.toUpper) then
    { st with currentSection := .synthesis }
  else
    match st.currentSection with
    | .consensus =>
      if line_stripped.head? = some '•' then
        let item := pyStrip (line_stripped.drop 1)
        if item = [] then st
        else { st with consensus_items := st.consensus_items ++ [String.mk item] }
      else st
    | .debates =>
      if line_stripped.head? = some '•' then
        let item := pyStrip (line_stripped.drop 1)
        if item = [] then st
        else
          match splitFirstColon item with
          | (topic, some positions) =>
            { st with debates :=
                st.debates ++ [⟨String.mk (pyStrip topic), String.mk (pyStrip positions)⟩] }
          | (_, none) =>
            { st with debates := st.debates ++ [⟨String.mk item, ""⟩] }
      else st
    | .synthesis => { st with synthesis_lines := st.synthesis_lines ++ [line] }
    | .nosec => st

/-- Python `"\n".join(lines)`. -/
def joinLinesNL : List (List Char) → List Char
  | [] => []
  | [l] => l
  | l :: ls => l ++ '\n' :: joinLinesNL ls

/-- `SynthesisService._parse_synthesis`: a total function of the raw chairman
text; returns `(consensus_items, debates, synthesis_only_text)`. -/
def parse_synthesis (text : String) : List String × List DebateItem × String :=
  let final := (splitLines text.toList).foldl parseStep initParseState
  (final.consensus_items, final.debates, String.mk (pyStrip (joinLinesNL final.synthesis_lines)))

structure SavedResponse where
  model_name : String
  response_text : String
  tokens_used : Nat
  response_time : Nat
deriving DecidableEq, Repr

inductive Event where
  | error (message : String)
  | debate_start (decision_id : Nat) (query : String)
      (council_members : List String) (chairman : String)
  | model_start (model_id : String)
  | model_chunk (model_id : String) (chunk : String)
  | model_complete (model_id : String) (response_time : Nat) (tokens : Nat)
  | model_error (model_id : String) (err : String)
  | synthesis_start (chairman : String)
  | synthesis_complete (consensus_items : List String) (debates : List DebateItem)
      (synthesis_text : String)
  | synthesis_error (err : String)
  | debate_complete (decision_id : Nat)
deriving DecidableEq, Repr

/-- The model id carried by a `model_*` event. -/
def Event.modelId : Event → Option String
  | .model_start m => some m
  | .model_chunk m _ => some m
  | .model_complete m _ _ => some m
  | .model_error m _ => some m
  | _ => none

def Event.isModelEvent (e : Event) : Bool := e.modelId.isSome

def Event.isModelStart : Event → Bool
  | .model_start _ => true
  | _ => false

def Event.isErrorEvent : Event → Bool
  | .error _ => true
  | _ => false

def Event.isSynthesisStart : Event → Bool
  | .synthesis_start _ => true
  | _ => false

def Event.isSynthesisComplete : Event → Bool
  | .synthesis_complete .. => true
  | _ => false

def Event.isSynthesisTerminal : Event → Bool
  | .synthesis_complete .. => true
  | .synthesis_error _ => true
  | _ => false

def Event.isDebateStart : Event → Bool
  | .debate_start .. => true
  | _ => false

def Event.isDebateComplete : Event → Bool
  | .debate_complete _ => true
  | _ => false

/-- How the producer of one member behaves when iterated by
`_stream_model_response`: it either exhausts after yielding `chunks`, or
raises after yielding `chunks`.  (For the concrete non-MCP client the second
constructor is unreachable: see `streamChatCompletions`, which never raises.) -/
inductive ProducerBehavior where
  | yields (chunks : List String)
  | raisesAfter (chunks : List String) (msg : String)
deriving DecidableEq, Repr

/-- The environment of one `_stream_model_response` task: its producer's
behaviour, whether the `add_response` database write raises (and with which
message), and the measured elapsed time. -/
structure MemberBehavior where
  producer : ProducerBehavior
  dbError : Option String
  elapsed : Nat
deriving DecidableEq, Repr

def chunkEvents (model_id : String) (chunks : List String) : List Event :=
  chunks.map (Event.model_chunk model_id)

/-- `CouncilOrchestrator._stream_model_response` (lines 141-208): the ordered
event sequence the task enqueues, and the response row it persists (if any).
`full_response` is the running concatenation of the chunks, `token_count` the
number of chunks. -/
def memberRun (model_id : String) (b : MemberBehavior) : List Event × Option SavedResponse :=
  match b.producer with
  | .raisesAfter chunks msg =>
    (Event.model_start model_id :: chunkEvents model_id chunks
       ++ [Event.model_error model_id msg], none)
  | .yields chunks =>
    match b.dbError with
    | some e =>
      (Event.model_start model_id :: chunkEvents model_id chunks
         ++ [Event.model_error model_id e], none)
    | none =>
      (Event.model_start model_id :: chunkEvents model_id chunks
         ++ [Event.model_complete model_id b.elapsed chunks.length],
       some ⟨model_id, concatChunks chunks, chunks.length, b.elapsed⟩)

/-- A council member whose producer is the concrete non-MCP client applied to
wire response `resp`: the generator never raises, so the behaviour is always
`yields`. -/
def clientMember (resp : WireResponse) (dbError : Option String) (elapsed : Nat) :
    MemberBehavior :=
  ⟨.yields (stream_chat_completion resp), dbError, elapsed⟩

/-- The per-member event sequences handed to the shared queue, in council
order. -/
def councilPhase (council_members : List String) (behaviors : List MemberBehavior) :
    List (List Event) :=
  (council_members.zip behaviors).map fun p => (memberRun p.1 p.2).1

/-- The response rows present in the database for this decision after all
member tasks have finished: exactly the rows persisted by the successful
members (`DecisionService.get_responses_for_decision`). -/
def savedResponses (council_members : List String) (behaviors : List MemberBehavior) :
    List SavedResponse :=
  (council_members.zip behaviors).filterMap fun p => (memberRun p.1 p.2).2

structure DrainState where
  pending : List (List Event)
  queue : List Event
  emitted : List Event
  allTasksDone : Bool
deriving DecidableEq, Repr

/-- The state when the loop is entered: nothing enqueued, nothing emitted,
`all_tasks_done = False`. -/
def DrainState.init (ls : List (List Event)) : DrainState := ⟨ls, [], [], false⟩

inductive DrainStep : DrainState → DrainState → Prop where
  | enqueue (s : DrainState) (i : Nat) (e : Event) (rest : List Event)
      (h : s.pending.get? i = some (e :: rest)) :
      DrainStep s ⟨s.pending.set i rest, s.queue ++ [e], s.emitted, s.allTasksDone⟩
  | dequeue (s : DrainState) (e : Event) (rest : List Event) (h : s.queue = e :: rest) :
      DrainStep s ⟨s.pending, rest, s.emitted ++ [e], s.allTasksDone⟩
  | timeout (s : DrainState) (h : s.queue = []) :
      DrainStep s ⟨s.pending, s.queue, s.emitted, s.pending.all List.isEmpty⟩

def DrainReaches : DrainState → DrainState → Prop := Relation.ReflTransGen DrainStep

/-- The loop condition `not all_tasks_done or not event_queue.empty()` is
false: the loop exits. -/
def DrainState.Exited (s : DrainState) : Prop := s.allTasksDone = true ∧ s.queue = []

def DrainInv (orig : List (List Event)) (s : DrainState) : Prop :=
  Interleaving orig (s.emitted ++ s.queue) s.pending ∧
    (s.allTasksDone = true → ∀ l ∈ s.pending, l = [])

structure DebateInput where
  query : String
  council_members : List String
  chairman : String
  behaviors : List MemberBehavior
  decision_id : Nat
  synthesisOutcome : Except String (List String × List DebateItem × String)
  synthesisDbError : Option String
deriving Repr

/-- Events of lines 95-139: the partial-failure check against the persisted
rows, then the synthesis attempt, then the final `debate_complete`. -/
def debateTail (inp : DebateInput) : List Event :=
  if (savedResponses inp.council_members inp.behaviors).length < 2 then
    [Event.error "Not enough models responded successfully for synthesis"]
  else
    Event.synthesis_start inp.chairman ::
      (match inp.synthesisOutcome with
       | .error e => [Event.synthesis_error ("Synthesis failed: " ++ e)]
       | .ok r =>
         match inp.synthesisDbError with
         | some e => [Event.synthesis_error ("Synthesis failed: " ++ e)]
         | none => [Event.synthesis_complete r.1 r.2.1 r.2.2])
      ++ [Event.debate_complete inp.decision_id]

/-- The full outward event sequence of `run_council_debate`, parametrised by
the order `emitted` in which the drain loop delivered the member events
(constrained to a complete merge of `councilPhase` in the theorems below). -/
def debateEvents (inp : DebateInput) (emitted : List Event) : List Event :=
  if inp.council_members.length < 2 then
    [Event.error "Need at least 2 council members for debate"]
  else
    Event.debate_start inp.decision_id inp.query inp.council_members inp.chairman ::
      emitted ++ debateTail inp

/-- The decision-store state after the run: whether a session row was created,
which response rows were appended, and the synthesis row (if any). -/
structure StoreEffect where
  sessionCreated : Bool
  responses : List SavedResponse
  synthesisSaved : Option (List String × List DebateItem × String)
deriving Repr

def debateStore (inp : DebateInput) : StoreEffect :=
  if inp.council_members.length < 2 then ⟨false, [], none⟩
  else
    { sessionCreated := true
      responses := savedResponses inp.council_members inp.behaviors
      synthesisSaved :=
        if (savedResponses inp.council_members inp.behaviors).length < 2 then none
        else
          match inp.synthesisOutcome with
          | .error _ => none
          | .ok r =>
            match inp.synthesisDbError with
            | some _ => none
            | none => some r }

def Event.isModelError : Event → Bool
  | .model_error _ _ => true
  | _ => false

def Event.isModelComplete : Event → Bool
  | .model_complete .. => true
  | _ => false

/-- `model_*` membership for a fixed model id. -/
def Event.isFor (m : String) (e : Event) : Bool := e.modelId == some m

/-- "`p`-events strictly precede `q`-events" in a sequence. -/
def StrictlyPrecedes (p q : Event → Prop) (evs : List Event) : Prop :=
  ∀ i j ei ej, evs.get? i = some ei → evs.get? j = some ej → p ei → q ej → i < j

/-- The transition rule of `_parse_synthesis`: does the trimmed line start one
of the three sections (case-insensitively)? -/
def isHeaderLine (line : List Char) : Bool :=
  "CONSENSUS".toList.isPrefixOf ((pyStrip line).map Char.toUpper) ||
    "DEBATES".toList.isPrefixOf ((pyStrip line).map Char.toUpper) ||
    "SYNTHESIS".toList.isPrefixOf ((pyStrip line).map Char.toUpper)

/-! ## Theorems -/

theorem list_get?_set_ne {α : Type} (l : List α) (i j : Nat) (a : α) (h : i ≠ j) :
    (l.set i a).get? j = l.get? j := by
  induction l generalizing i j with
  | nil => simp
  | cons x xs ih =>
    cases i with
    | zero => cases j with
      | zero => exact absurd rfl h
      | succ j => simp [List.set, List.get?]
    | succ i => cases j with
      | zero => simp [List.set, List.get?]
      | succ j =>
        simp only [List.set, List.get?]
        exact ih i j (fun hc => h (by rw [hc]))

theorem list_get?_set_self {α : Type} (l : List α) (i : Nat) (a b : α)
    (h : l.get? i = some b) : (l.set i a).get? i = some a := by
  induction l generalizing i with
  | nil => simp at h
  | cons x xs ih =>
    cases i with
    | zero => simp [List.set, List.get?]
    | succ i => simpa [List.set, List.get?] using ih i (by simpa [List.get?] using h)

theorem list_set_same {α : Type} (l : List α) (i : Nat) (a : α)
    (h : l.get? i = some a) : l.set i a = l := by
  induction l generalizing i with
  | nil => simp
  | cons x xs ih =>
    cases i with
    | zero => simp [List.get?] at h; simp [List.set, h]
    | succ i => simp [List.set]; exact ih i (by simpa [List.get?] using h)

theorem list_get?_mem {α : Type} {l : List α} {i : Nat} {a : α}
    (h : l.get? i = some a) : a ∈ l := by
  induction l generalizing i with
  | nil => simp at h
  | cons x xs ih =>
    cases i with
    | zero => simp [List.get?] at h; simp [h]
    | succ i => exact List.mem_cons_of_mem _ (ih (by simpa [List.get?] using h))

theorem list_length_set {α : Type} (l : List α) (i : Nat) (a : α) :
    (l.set i a).length = l.length := List.length_set l i a

theorem Interleaving.length_rem {α : Type} {ls : List (List α)} {out : List α}
    {rem : List (List α)} (h : Interleaving ls out rem) : rem.length = ls.length := by
  induction h with
  | refl => rfl
  | snoc i e rest _ _ ih => rw [list_length_set]; exact ih

/-- Each remainder is a suffix of the corresponding input list, and the already
consumed prefix is a sublist of the output (so per-list order is preserved). -/
theorem Interleaving.rem_suffix {α : Type} {ls : List (List α)} {out : List α}
    {rem : List (List α)} (h : Interleaving ls out rem) :
    ∀ i ri, rem.get? i = some ri → ∃ pre, ls.get? i = some (pre ++ ri) ∧ pre.Sublist out := by
  induction h with
  | refl =>
    intro i ri hi
    exact ⟨[], by simpa using hi, List.nil_sublist _⟩
  | snoc j e rest hprev hget ih =>
    rename_i out' rem'
    intro i ri hi
    by_cases hij : j = i
    · subst hij
      have hset : (rem'.set j rest).get? j = some rest := list_get?_set_self _ _ _ _ hget
      rw [hset] at hi
      obtain ⟨rfl⟩ : rest = ri := by exact Option.some.inj hi
      obtain ⟨pre, hpre, hsub⟩ := ih j (e :: rest) hget
      refine ⟨pre ++ [e], ?_, List.Sublist.append hsub (List.Sublist.refl _)⟩
      rw [hpre]
      simp
    · rw [list_get?_set_ne _ _ _ _ hij] at hi
      obtain ⟨pre, hpre, hsub⟩ := ih i ri hi
      exact ⟨pre, hpre, hsub.trans (List.sublist_append_left _ _)⟩

/-- Interleaving derivations compose: continuing to consume from the
remainders extends the output. -/
theorem Interleaving.comp {α : Type} {ls : List (List α)} {out₁ : List α}
    {rem₁ : List (List α)} {out₂ : List α} {rem₂ : List (List α)}
    (h₁ : Interleaving ls out₁ rem₁) (h₂ : Interleaving rem₁ out₂ rem₂) :
    Interleaving ls (out₁ ++ out₂) rem₂ := by
  induction h₂ with
  | refl => simpa using h₁
  | snoc j e rest hprev hget ih =>
    have := Interleaving.snoc j e rest ih hget
    simpa using this

/-- Consuming one whole list (at index `i`) in a single run. -/
theorem Interleaving.flushAt {α : Type} {ls : List (List α)} {out : List α}
    {rem : List (List α)} (li : List α)
    (h : Interleaving ls out rem) (hget : rem.get? i = some li) :
    Interleaving ls (out ++ li) (rem.set i []) := by
  induction li generalizing out rem with
  | nil => simpa [list_set_same rem i [] hget] using h
  | cons x xs ih =>
    have hstep := Interleaving.snoc i x xs h hget
    have hget' : (rem.set i xs).get? i = some xs := list_get?_set_self _ _ _ _ hget
    have := ih hstep hget'
    simpa [List.set_set] using this

/-- Lifting an interleaving derivation under a fresh head list. -/
theorem Interleaving.consLift {α : Type} {ls : List (List α)} {out : List α}
    {rem : List (List α)} (x : List α) (h : Interleaving ls out rem) :
    Interleaving (x :: ls) out (x :: rem) := by
  induction h with
  | refl => exact Interleaving.refl _
  | snoc j e rest hprev hget ih =>
    have := Interleaving.snoc (j + 1) e rest ih (by simpa [List.get?] using hget)
    simpa [List.set] using this

/-- The plain concatenation of the lists is one possible complete merge:
the schedule that drains each producer in turn. -/
theorem isMerge_join {α : Type} (ls : List (List α)) : IsMerge ls ls.join := by
  induction ls with
  | nil => exact ⟨[], Interleaving.refl [], by simp⟩
  | cons l ls ih =>
    obtain ⟨rem, hrem, hempty⟩ := ih
    have h1 : Interleaving (l :: ls) l ([] :: ls) := by
      have := Interleaving.flushAt (i := 0) l (Interleaving.refl (l :: ls)) (by simp [List.get?])
      simpa [List.set] using this
    have h2 : Interleaving ([] :: ls) ls.join ([] :: rem) := Interleaving.consLift [] hrem
    refine ⟨[] :: rem, ?_, ?_⟩
    · simpa [List.join] using Interleaving.comp h1 h2
    · intro x hx
      rcases List.mem_cons.mp hx with h | h
      · exact h.symm ▸ rfl
      · exact hempty x h

/-- Everything in the output of an interleaving comes from one of the inputs. -/
theorem Interleaving.mem_out {α : Type} {ls : List (List α)} {out : List α}
    {rem : List (List α)} (h : Interleaving ls out rem) :
    ∀ e ∈ out, ∃ l, l ∈ ls ∧ e ∈ l := by
  induction h with
  | refl => intro e he; simp at he
  | snoc j e rest hprev hget ih =>
    intro x hx
    rcases List.mem_append.mp hx with h | h
    · exact ih x h
    · obtain ⟨pre, hpre, _⟩ := hprev.rem_suffix j (e :: rest) hget
      refine ⟨pre ++ e :: rest, list_get?_mem hpre, ?_⟩
      have : x = e := by simpa using h
      subst this
      simp

/-- A complete merge contains each input list as a sublist (per-producer order
is preserved, and no element is lost). -/
theorem IsMerge.sublist {α : Type} {ls : List (List α)} {out : List α}
    (h : IsMerge ls out) : ∀ i li, ls.get? i = some li → li.Sublist out := by
  obtain ⟨rem, hrem, hempty⟩ := h
  intro i li hi
  have hlen : rem.length = ls.length := hrem.length_rem
  have hi_lt : i < ls.length := by
    by_contra hge
    rw [List.get?_eq_none.mpr (Nat.le_of_not_lt hge)] at hi
    exact Option.noConfusion hi
  have hri : rem.get? i = some (rem.get ⟨i, hlen ▸ hi_lt⟩) := List.get?_eq_get _
  have hnil : rem.get ⟨i, hlen ▸ hi_lt⟩ = [] := hempty _ (list_get?_mem hri)
  rw [hnil] at hri
  obtain ⟨pre, hpre, hsub⟩ := hrem.rem_suffix i [] hri
  rw [hi] at hpre
  have : li = pre := by simpa using Option.some.inj hpre
  rw [this]
  exact hsub

theorem flatten_nil_of_all {α : Type} (ls : List (List α)) (h : ∀ l ∈ ls, l = []) :
    ls.flatten = [] := by
  induction ls with
  | nil => rfl
  | cons x xs ih => simp [h x (by simp), ih (fun l hl => h l (List.mem_cons_of_mem _ hl))]

theorem flatten_perm_cons_of_get {α : Type} (rem : List (List α)) (i : Nat) (e : α)
    (rest : List α) (h : rem.get? i = some (e :: rest)) :
    List.Perm rem.flatten (e :: (rem.set i rest).flatten) := by
  induction rem generalizing i with
  | nil => simp at h
  | cons x xs ih =>
    cases i with
    | zero =>
      simp only [List.get?] at h
      obtain rfl : x = e :: rest := Option.some.inj h
      simp [List.set]
    | succ i =>
      have hx := ih i (by simpa [List.get?] using h)
      simp only [List.set, List.flatten_cons]
      exact (hx.append_left x).trans List.perm_middle

/-- A complete merge is a permutation of the concatenation of its inputs:
event counts are preserved by the fan-in. -/
theorem IsMerge.perm_flatten {α : Type} {ls : List (List α)} {out : List α}
    (h : IsMerge ls out) : List.Perm out ls.flatten := by
  obtain ⟨rem, hrem, hempty⟩ := h
  have key : ∀ {o : List α} {r : List (List α)}, Interleaving ls o r →
      List.Perm (o ++ r.flatten) ls.flatten := by
    intro o r hir
    induction hir with
    | refl => simp
    | snoc j e rest hprev hget ih =>
      rename_i o' r'
      have hperm := flatten_perm_cons_of_get r' j e rest hget
      rw [List.append_assoc]
      exact (hperm.symm.append_left o').trans ih
  have hout := key hrem
  rwa [flatten_nil_of_all _ hempty, List.append_nil] at hout

/-- Interleaving commutes with filtering each lane. -/
theorem Interleaving.filter {α : Type} (p : α → Bool) {ls : List (List α)}
    {out : List α} {rem : List (List α)} (h : Interleaving ls out rem) :
    Interleaving (ls.map (List.filter p)) (out.filter p) (rem.map (List.filter p)) := by
  induction h with
  | snoc j e rest hprev hget ih => ?_
  | refl => exact Interleaving.refl _
  rename_i out' rem'
  have hget' : (rem'.map (List.filter p)).get? j = some ((e :: rest).filter p) := by
    rw [List.get?_map, hget]; rfl
  have hmapset : (rem'.set j rest).map (List.filter p)
      = (rem'.map (List.filter p)).set j (rest.filter p) := List.map_set ..
  by_cases hpe : p e
  · rw [List.filter_cons_of_pos hpe] at hget'
    have hstep := Interleaving.snoc j e (rest.filter p) ih hget'
    rw [List.filter_append, List.filter_cons_of_pos hpe, List.filter_nil, hmapset]
    exact hstep
  · rw [List.filter_cons_of_neg hpe] at hget'
    rw [List.filter_append, List.filter_cons_of_neg hpe, List.filter_nil, List.append_nil,
      hmapset, list_set_same _ _ _ hget']
    exact ih

/-- If every input list except the one at index `i` is empty, a complete merge
is exactly the list at index `i`. -/
theorem Interleaving.singleton_lane {α : Type} {ls : List (List α)} {out : List α}
    {rem : List (List α)} (h : Interleaving ls out rem) (i : Nat) (li : List α)
    (hi : ls.get? i = some li)
    (hothers : ∀ j lj, j ≠ i → ls.get? j = some lj → lj = []) :
    ∀ ri, rem.get? i = some ri → out ++ ri = li := by
  induction h with
  | refl =>
    intro ri hri
    rw [hi] at hri
    simpa using (Option.some.inj hri).symm
  | snoc j e rest hprev hget ih =>
    rename_i out' rem'
    intro ri hri
    by_cases hji : j = i
    · subst hji
      rw [list_get?_set_self _ _ _ _ hget] at hri
      obtain rfl : rest = ri := Option.some.inj hri
      have hih := ih (e :: rest) hget
      rw [List.append_assoc]
      simpa using hih
    · obtain ⟨pre, hpre, _⟩ := hprev.rem_suffix j (e :: rest) hget
      have : pre ++ e :: rest = [] := hothers j _ hji hpre
      simp at this

theorem IsMerge.singleton_out {α : Type} {ls : List (List α)} {out : List α}
    (h : IsMerge ls out) (i : Nat) (li : List α)
    (hi : ls.get? i = some li)
    (hothers : ∀ j lj, j ≠ i → ls.get? j = some lj → lj = []) :
    out = li := by
  obtain ⟨rem, hrem, hempty⟩ := h
  have hlen : rem.length = ls.length := hrem.length_rem
  have hi_lt : i < ls.length := by
    by_contra hge
    rw [List.get?_eq_none.mpr (Nat.le_of_not_lt hge)] at hi
    exact Option.noConfusion hi
  have hri : rem.get? i = some (rem.get ⟨i, hlen ▸ hi_lt⟩) := List.get?_eq_get _
  have hnil : rem.get ⟨i, hlen ▸ hi_lt⟩ = [] := hempty _ (list_get?_mem hri)
  rw [hnil] at hri
  have := hrem.singleton_lane i li hi hothers [] hri
  simpa using this

/-- Membership version of `IsMerge`: the output's elements are exactly the
inputs' elements. -/
theorem IsMerge.mem_iff {α : Type} {ls : List (List α)} {out : List α}
    (h : IsMerge ls out) (e : α) : e ∈ out ↔ ∃ l, l ∈ ls ∧ e ∈ l := by
  constructor
  · intro he
    obtain ⟨rem, hrem, _⟩ := h
    exact hrem.mem_out e he
  · rintro ⟨l, hl, hel⟩
    have hsub : l.Sublist out := by
      obtain ⟨i, hi⟩ := List.get?_of_mem hl
      exact h.sublist i l hi
    exact hsub.mem hel

theorem foldl_append_eq_concatChunks (cs : List String) :
    ∀ s : String, cs.foldl (fun acc c => acc ++ c) s = s ++ concatChunks cs := by
  induction cs with
  | nil => intro s; simp [concatChunks]
  | cons c cs ih =>
    intro s
    simp only [List.foldl_cons, concatChunks, ih (s ++ c)]
    rw [String.append_assoc]

theorem drainInv_init (ls : List (List Event)) : DrainInv ls (DrainState.init ls) :=
  ⟨Interleaving.refl ls, by intro h; simp [DrainState.init] at h⟩

theorem drainInv_step {orig : List (List Event)} {s t : DrainState}
    (hstep : DrainStep s t) (hinv : DrainInv orig s) : DrainInv orig t := by
  obtain ⟨hmerge, hflag⟩ := hinv
  cases hstep with
  | enqueue i e rest h =>
    constructor
    · have := Interleaving.snoc i e rest hmerge h
      simpa [List.append_assoc] using this
    · intro hdone
      exfalso
      have : (e :: rest) ∈ s.pending := list_get?_mem h
      exact List.cons_ne_nil e rest (hflag hdone _ this)
  | dequeue e rest h =>
    constructor
    · simpa [h, List.append_assoc] using hmerge
    · exact hflag
  | timeout h =>
    constructor
    · exact hmerge
    · intro hdone l hl
      have := List.all_eq_true.mp hdone l hl
      simpa [List.isEmpty_iff] using this

theorem drainInv_reaches {orig : List (List Event)} {s t : DrainState}
    (h : DrainReaches s t) (hinv : DrainInv orig s) : DrainInv orig t := by
  induction h with
  | refl => exact hinv
  | tail _ hstep ih => exact drainInv_step hstep ih

/-- Soundness of the drain loop: when the loop exits, every task has no events
left to enqueue, the queue is empty, and the emitted sequence is a complete
merge of the per-task event sequences — nothing is lost, nothing is
reordered within a task, and nothing can arrive after the exit. -/
theorem drain_exit_merge {ls : List (List Event)} {s : DrainState}
    (h : DrainReaches (DrainState.init ls) s) (hexit : s.Exited) :
    IsMerge ls s.emitted ∧ (∀ l ∈ s.pending, l = []) ∧ s.queue = [] := by
  have hinv := drainInv_reaches h (drainInv_init ls)
  obtain ⟨hmerge, hflag⟩ := hinv
  obtain ⟨hdone, hqueue⟩ := hexit
  have hpend := hflag hdone
  rw [hqueue, List.append_nil] at hmerge
  exact ⟨⟨s.pending, hmerge, hpend⟩, hpend, hqueue⟩

theorem strictlyPrecedes_split (p q : Event → Prop) (pre post : List Event)
    (hq : ∀ e ∈ pre, ¬ q e) (hp : ∀ e ∈ post, ¬ p e) :
    StrictlyPrecedes p q (pre ++ post) := by
  intro i j ei ej hi hj hpi hqj
  have hi_lt : i < pre.length := by
    by_contra hge
    rw [List.get?_append_right (Nat.le_of_not_lt hge)] at hi
    exact hp ei (list_get?_mem hi) hpi
  have hj_ge : pre.length ≤ j := by
    by_contra hlt
    rw [List.get?_append (Nat.lt_of_not_le hlt)] at hj
    exact hq ej (list_get?_mem hj) hqj
  exact Nat.lt_of_lt_of_le hi_lt hj_ge

theorem list_nodup_get?_inj {α : Type} {l : List α} (h : l.Nodup) {i j : Nat} {a : α}
    (hi : l.get? i = some a) (hj : l.get? j = some a) : i = j := by
  induction l generalizing i j with
  | nil => simp at hi
  | cons x xs ih =>
    obtain ⟨hx, hxs⟩ := List.nodup_cons.mp h
    cases i with
    | zero =>
      cases j with
      | zero => rfl
      | succ j =>
        exfalso
        have hax : x = a := by simpa [List.get?] using hi
        have : a ∈ xs := list_get?_mem (by simpa [List.get?] using hj)
        exact hx (hax ▸ this)
    | succ i =>
      cases j with
      | zero =>
        exfalso
        have hax : x = a := by simpa [List.get?] using hj
        have : a ∈ xs := list_get?_mem (by simpa [List.get?] using hi)
        exact hx (hax ▸ this)
      | succ j =>
        have := ih hxs (by simpa [List.get?] using hi) (by simpa [List.get?] using hj)
        omega

theorem memberRun_modelId {m : String} {b : MemberBehavior} :
    ∀ e ∈ (memberRun m b).1, e.modelId = some m := by
  intro e he
  cases b with
  | mk producer dbError elapsed =>
    cases producer with
    | yields chunks =>
      cases dbError with
      | some msg =>
        simp only [memberRun] at he
        rcases List.mem_cons.mp he with rfl | he
        · rfl
        · rcases List.mem_append.mp he with he | he
          · obtain ⟨c, _, rfl⟩ := List.mem_map.mp he
            rfl
          · simp at he; subst he; rfl
      | none =>
        simp only [memberRun] at he
        rcases List.mem_cons.mp he with rfl | he
        · rfl
        · rcases List.mem_append.mp he with he | he
          · obtain ⟨c, _, rfl⟩ := List.mem_map.mp he
            rfl
          · simp at he; subst he; rfl
    | raisesAfter chunks msg =>
      simp only [memberRun] at he
      rcases List.mem_cons.mp he with rfl | he
      · rfl
      · rcases List.mem_append.mp he with he | he
        · obtain ⟨c, _, rfl⟩ := List.mem_map.mp he
          rfl
        · simp at he; subst he; rfl

/-- The event sequence of one member always has the shape
`model_start`, then the chunks, then exactly one terminal event. -/
theorem memberRun_shape (m : String) (b : MemberBehavior) :
    ∃ chunks tl, (memberRun m b).1 = Event.model_start m :: chunkEvents m chunks ++ [tl] ∧
      (tl = Event.model_complete m b.elapsed chunks.length ∨
        ∃ msg, tl = Event.model_error m msg) := by
  cases b with
  | mk producer dbError elapsed =>
    cases producer with
    | yields chunks =>
      cases dbError with
      | some msg => exact ⟨chunks, _, rfl, Or.inr ⟨msg, rfl⟩⟩
      | none => exact ⟨chunks, _, rfl, Or.inl rfl⟩
    | raisesAfter chunks msg => exact ⟨chunks, _, rfl, Or.inr ⟨msg, rfl⟩⟩

theorem chunkEvents_countP_start (m : String) (chunks : List String) :
    (chunkEvents m chunks).countP Event.isModelStart = 0 := by
  rw [List.countP_eq_zero]
  intro e he
  obtain ⟨c, _, rfl⟩ := List.mem_map.mp he
  simp [Event.isModelStart]

/-- Each member emits exactly one `model_start`. -/
theorem memberRun_countP_start (m : String) (b : MemberBehavior) :
    ((memberRun m b).1).countP Event.isModelStart = 1 := by
  obtain ⟨chunks, tl, heq, htl⟩ := memberRun_shape m b
  rw [heq]
  rcases htl with rfl | ⟨msg, rfl⟩ <;>
    simp [List.countP_cons, List.countP_append, chunkEvents_countP_start, Event.isModelStart]

/-- A `model_*` event is none of the session-level events. -/
theorem event_model_excl {e : Event} (h : e.isModelEvent = true) :
    e.isErrorEvent = false ∧ e.isSynthesisStart = false ∧ e.isSynthesisTerminal = false ∧
      e.isDebateStart = false ∧ e.isDebateComplete = false ∧ e.isSynthesisComplete = false := by
  cases e <;> simp_all [Event.isModelEvent, Event.modelId, Event.isErrorEvent,
    Event.isSynthesisStart, Event.isSynthesisTerminal, Event.isDebateStart,
    Event.isDebateComplete, Event.isSynthesisComplete]

theorem councilPhase_mem {council_members : List String} {behaviors : List MemberBehavior}
    {l : List Event} (h : l ∈ councilPhase council_members behaviors) :
    ∃ m b, l = (memberRun m b).1 := by
  obtain ⟨⟨m, b⟩, _, rfl⟩ := List.mem_map.mp h
  exact ⟨m, b, rfl⟩

/-- Every event delivered by the fan-in during the collection phase is a
`model_*` event. -/
theorem merged_isModel {council_members : List String} {behaviors : List MemberBehavior}
    {emitted : List Event}
    (hmerge : IsMerge (councilPhase council_members behaviors) emitted) :
    ∀ e ∈ emitted, e.isModelEvent = true := by
  intro e he
  obtain ⟨l, hl, hel⟩ := (hmerge.mem_iff e).mp he
  obtain ⟨m, b, rfl⟩ := councilPhase_mem hl
  have := memberRun_modelId e hel
  simp [Event.isModelEvent, this]

/-- `councilPhase` is pointwise the per-member runs. -/
theorem councilPhase_get? (council_members : List String) (behaviors : List MemberBehavior)
    (j : Nat) :
    (councilPhase council_members behaviors).get? j =
      (council_members.get? j).bind fun m =>
        (behaviors.get? j).map fun b => (memberRun m b).1 := by
  induction council_members generalizing behaviors j with
  | nil => simp [councilPhase]
  | cons m ms ih =>
    cases behaviors with
    | nil => simp [councilPhase]
    | cons b bs =>
      cases j with
      | zero => simp [councilPhase, List.get?]
      | succ j =>
        have := ih bs j
        simpa [councilPhase, List.get?] using this

theorem debateTail_abort (inp : DebateInput)
    (h : (savedResponses inp.council_members inp.behaviors).length < 2) :
    debateTail inp = [Event.error "Not enough models responded successfully for synthesis"] := by
  unfold debateTail
  rw [if_pos h]

theorem debateTail_go (inp : DebateInput)
    (h : ¬ (savedResponses inp.council_members inp.behaviors).length < 2) :
    ∃ mid : Event,
      debateTail inp = Event.synthesis_start inp.chairman ::
        mid :: [Event.debate_complete inp.decision_id] ∧
      ((∃ e, inp.synthesisOutcome = .error e ∧
          mid = Event.synthesis_error ("Synthesis failed: " ++ e)) ∨
       (∃ r e, inp.synthesisOutcome = .ok r ∧ inp.synthesisDbError = some e ∧
          mid = Event.synthesis_error ("Synthesis failed: " ++ e)) ∨
       (∃ r, inp.synthesisOutcome = .ok r ∧ inp.synthesisDbError = none ∧
          mid = Event.synthesis_complete r.1 r.2.1 r.2.2)) := by
  unfold debateTail
  rw [if_neg h]
  rcases hso : inp.synthesisOutcome with e | r
  · exact ⟨_, by simp [hso], Or.inl ⟨e, rfl, rfl⟩⟩
  · rcases hsde : inp.synthesisDbError with _ | e
    · exact ⟨_, by simp [hso, hsde], Or.inr (Or.inr ⟨r, rfl, rfl, rfl⟩)⟩
    · exact ⟨_, by simp [hso, hsde], Or.inr (Or.inl ⟨r, e, rfl, rfl, rfl⟩)⟩

theorem debateTail_no_model (inp : DebateInput) :
    ∀ e ∈ debateTail inp, e.modelId = none ∧ e.isDebateStart = false := by
  intro e he
  by_cases hlt : (savedResponses inp.council_members inp.behaviors).length < 2
  · rw [debateTail_abort inp hlt] at he
    simp at he
    subst he
    exact ⟨rfl, rfl⟩
  · obtain ⟨mid, heq, hmid⟩ := debateTail_go inp hlt
    rw [heq] at he
    rcases List.mem_cons.mp he with rfl | he
    · exact ⟨rfl, rfl⟩
    rcases List.mem_cons.mp he with rfl | he
    · rcases hmid with ⟨x, _, rfl⟩ | ⟨x, y, _, _, rfl⟩ | ⟨x, _, _, rfl⟩ <;> exact ⟨rfl, rfl⟩
    · simp at he
      subst he
      exact ⟨rfl, rfl⟩

theorem drain_flush_one (p : List (List Event)) (em : List Event) (f : Bool)
    (i : Nat) (l : List Event) (hget : p.get? i = some l) :
    DrainReaches ⟨p, [], em, f⟩ ⟨p.set i [], [], em ++ l, f⟩ := by
  induction l generalizing p em with
  | nil =>
    rw [list_set_same p i [] hget, List.append_nil]
    exact Relation.ReflTransGen.refl
  | cons x xs ih =>
    have h1 : DrainStep (⟨p, [], em, f⟩ : DrainState) ⟨p.set i xs, [x], em, f⟩ := by
      have := DrainStep.enqueue ⟨p, [], em, f⟩ i x xs hget
      simpa using this
    have h2 : DrainStep (⟨p.set i xs, [x], em, f⟩ : DrainState) ⟨p.set i xs, [], em ++ [x], f⟩ :=
      DrainStep.dequeue _ x [] rfl
    have h3 := ih (p.set i xs) (em ++ [x]) (list_get?_set_self _ _ _ _ hget)
    rw [List.set_set, List.append_assoc] at h3
    exact Relation.ReflTransGen.head h1 (Relation.ReflTransGen.head h2 h3)

theorem take_map_append_drop_set (ls : List (List Event)) (k : Nat) :
    (((ls.take k).map (fun _ => ([] : List Event)) ++ ls.drop k).set k []) =
      (ls.take (k+1)).map (fun _ => ([] : List Event)) ++ ls.drop (k+1) := by
  induction ls generalizing k with
  | nil => simp
  | cons x xs ih =>
    cases k with
    | zero => simp
    | succ k =>
      simpa using congrArg (List.cons ([] : List Event)) (ih k)

theorem take_map_append_drop_get? (ls : List (List Event)) (k : Nat) :
    ((ls.take k).map (fun _ => ([] : List Event)) ++ ls.drop k).get? k = ls.get? k := by
  induction ls generalizing k with
  | nil => simp
  | cons x xs ih =>
    cases k with
    | zero => simp [List.get?]
    | succ k =>
      simp only [List.take, List.map, List.drop, List.cons_append, List.get?]
      exact ih k

/-- The drain loop can reach, from its initial state, the state in which every
task has been fully drained in council order and the stale flag has been
refreshed: an explicit exited run whose emitted sequence is the plain
concatenation. -/
theorem drain_reaches_flatten (ls : List (List Event)) :
    DrainReaches (DrainState.init ls)
      ⟨ls.map (fun _ => []), [], ls.flatten, true⟩ := by
  have aux : ∀ k, k ≤ ls.length →
      DrainReaches (DrainState.init ls)
        ⟨(ls.take k).map (fun _ => []) ++ ls.drop k, [], (ls.take k).flatten, false⟩ := by
    intro k hk
    induction k with
    | zero => simpa [DrainState.init] using Relation.ReflTransGen.refl
    | succ k ihk =>
      have hk' : k ≤ ls.length := Nat.le_of_succ_le hk
      have hreach := ihk hk'
      have hk_lt : k < ls.length := hk
      have hget : ls.get? k = some (ls.get ⟨k, hk_lt⟩) := List.get?_eq_get _
      have hget' : ((ls.take k).map (fun _ => ([] : List Event)) ++ ls.drop k).get? k
          = some (ls.get ⟨k, hk_lt⟩) := by rw [take_map_append_drop_get?]; exact hget
      have hflush := drain_flush_one _ ((ls.take k).flatten) false k (ls.get ⟨k, hk_lt⟩) hget'
      rw [take_map_append_drop_set] at hflush
      have hflat : (ls.take k).flatten ++ ls.get ⟨k, hk_lt⟩ = (ls.take (k+1)).flatten := by
        rw [← List.take_concat_get' ls k hk_lt, List.flatten_append]
        simp
      rw [hflat] at hflush
      exact hreach.trans hflush
  have hfin := aux ls.length (Nat.le_refl _)
  rw [List.take_length, List.drop_length, List.append_nil] at hfin
  have hlast : DrainStep
      (⟨ls.map (fun _ => []), [], ls.flatten, false⟩ : DrainState)
      ⟨ls.map (fun _ => []), [], ls.flatten, true⟩ := by
    have := DrainStep.timeout ⟨ls.map (fun _ => []), [], ls.flatten, false⟩ rfl
    have hall : (ls.map (fun _ => ([] : List Event))).all List.isEmpty = true := by
      rw [List.all_eq_true]
      intro l hl
      obtain ⟨_, _, rfl⟩ := List.mem_map.mp hl
      rfl
    simpa [hall] using this
  exact hfin.tail hlast

theorem splitFirstColon_none {l : List Char} (h : (splitFirstColon l).2 = none) :
    (splitFirstColon l).1 = l ∧ ':' ∉ l := by
  induction l with
  | nil => exact ⟨rfl, by simp⟩
  | cons c cs ih =>
    by_cases hc : c = ':'
    · exfalso
      rw [splitFirstColon, if_pos hc] at h
      exact Option.noConfusion h
    · rw [splitFirstColon, if_neg hc] at h ⊢
      obtain ⟨h1, h2⟩ := ih h
      refine ⟨by simpa using h1, ?_⟩
      intro hmem
      rcases List.mem_cons.mp hmem with hco | hco
      · exact hc hco.symm
      · exact h2 hco

theorem splitFirstColon_some {l rest : List Char} (h : (splitFirstColon l).2 = some rest) :
    l = (splitFirstColon l).1 ++ ':' :: rest ∧ ':' ∉ (splitFirstColon l).1 := by
  induction l generalizing rest with
  | nil => simp [splitFirstColon] at h
  | cons c cs ih =>
    by_cases hc : c = ':'
    · subst hc
      rw [splitFirstColon, if_pos rfl] at h ⊢
      obtain rfl : cs = rest := Option.some.inj h
      exact ⟨rfl, by simp⟩
    · rw [splitFirstColon, if_neg hc] at h ⊢
      obtain ⟨h1, h2⟩ := ih h
      constructor
      · simpa using congrArg (List.cons c) h1
      · intro hmem
        rcases List.mem_cons.mp hmem with hco | hco
        · exact hc hco.symm
        · exact h2 hco

theorem colon_mem_iff_splitFirstColon (l : List Char) :
    ':' ∈ l ↔ (splitFirstColon l).2.isSome := by
  constructor
  · intro hmem
    cases hsp : (splitFirstColon l).2 with
    | some rest => rfl
    | none => exact absurd hmem (splitFirstColon_none hsp).2
  · intro hsome
    cases hsp : (splitFirstColon l).2 with
    | none => rw [hsp] at hsome; exact Bool.noConfusion hsome
    | some rest =>
      obtain ⟨heq, _⟩ := splitFirstColon_some hsp
      rw [heq]
      simp

/-- C6: the parser applied to
`"CONSENSUS:\n• A\n• B\nDEBATES:\n• X: Y vs Z\nSYNTHESIS:\nline1\n\nline2"`
returns exactly consensus items `["A", "B"]`, debates
`[{topic := "X", positions := "Y vs Z"}]`, and synthesis text
`"line1\n\nline2"`. -/
theorem parse_synthesis_roundtrip :
    parse_synthesis "CONSENSUS:\n• A\n• B\nDEBATES:\n• X: Y vs Z\nSYNTHESIS:\nline1\n\nline2"
      = (["A", "B"], [⟨"X", "Y vs Z"⟩], "line1\n\nline2") := by
  decide

/-- C7: the parser is total by construction (`parse_synthesis` is a Lean
function, defined for every input string), and on any input none of whose
lines is a recognized section header (trimmed, case-insensitive prefix
CONSENSUS / DEBATES / SYNTHESIS) it returns empty consensus items, empty
debates, and empty synthesis text. -/
theorem parse_synthesis_no_headers (s : String)
    (h : ∀ line ∈ splitLines s.toList, isHeaderLine line = false) :
    parse_synthesis s = ([], [], "") := by
  have key : ∀ lines : List (List Char), (∀ line ∈ lines, isHeaderLine line = false) →
      lines.foldl parseStep initParseState = initParseState := by
    intro lines hlines
    induction lines with
    | nil => rfl
    | cons l ls ih =>
      have hh := hlines l (by simp)
      have h12 := Bool.or_eq_false_iff.mp hh
      have h3 := h12.2
      have h1 := (Bool.or_eq_false_iff.mp h12.1).1
      have h2 := (Bool.or_eq_false_iff.mp h12.1).2
      have hstep : parseStep initParseState l = initParseState := by
        unfold parseStep
        simp only [h1, h2, h3, Bool.false_eq_true, if_false]
        rfl
      rw [List.foldl_cons, hstep]
      exact ih (fun line hl => hlines line (List.mem_cons_of_mem _ hl))
  unfold parse_synthesis
  rw [key _ h]
  rfl

/-- C7 witness at a concrete header-free input. -/
theorem parse_synthesis_no_headers_witness :
    parse_synthesis "hello\nworld" = ([], [], "") :=
  parse_synthesis_no_headers "hello\nworld" (by decide)

/-- C10: the non-streaming completion used for the chairman call
(`get_chat_completion`) returns exactly the in-order concatenation of the
chunks produced by the streaming mode (`stream_chat_completion`) on the same
inputs. -/
theorem get_chat_completion_eq_concat_stream (resp : WireResponse) :
    get_chat_completion resp = concatChunks (stream_chat_completion resp) := by
  unfold get_chat_completion
  rw [foldl_append_eq_concatChunks]
  rfl

/-- C8: content rules of the parser state machine, for any non-header line.
In state DEBATES, a line whose trimmed form starts with the bullet marker
yields an item (bullet stripped, re-trimmed); a blank item is dropped; if the
item contains a colon, the substring before the first colon (trimmed) becomes
the topic and the remainder (trimmed) the positions, otherwise the whole item
is the topic and the positions are empty.  Non-bullet lines in CONSENSUS or
DEBATES and every line in state NONE are discarded. -/
theorem parseStep_content (st : ParseState) (line : List Char)
    (hhead : isHeaderLine line = false) :
    (st.currentSection = .debates → (pyStrip line).head? = some '•' →
      (pyStrip ((pyStrip line).drop 1) = [] → parseStep st line = st) ∧
      (pyStrip ((pyStrip line).drop 1) ≠ [] →
        ((':' ∈ pyStrip ((pyStrip line).drop 1) →
            ∃ pre rest, pyStrip ((pyStrip line).drop 1) = pre ++ ':' :: rest ∧ ':' ∉ pre ∧
              parseStep st line = { st with debates :=
                st.debates ++ [⟨String.mk (pyStrip pre), String.mk (pyStrip rest)⟩] }) ∧
         (':' ∉ pyStrip ((pyStrip line).drop 1) →
            parseStep st line = { st with debates :=
              st.debates ++ [⟨String.mk (pyStrip ((pyStrip line).drop 1)), ""⟩] })))) ∧
    (st.currentSection = .debates → ¬ (pyStrip line).head? = some '•' →
      parseStep st line = st) ∧
    (st.currentSection = .consensus → ¬ (pyStrip line).head? = some '•' →
      parseStep st line = st) ∧
    (st.currentSection = .nosec → parseStep st line = st) := by
  have h12 := Bool.or_eq_false_iff.mp hhead
  have h3 := h12.2
  have h1 := (Bool.or_eq_false_iff.mp h12.1).1
  have h2 := (Bool.or_eq_false_iff.mp h12.1).2
  refine ⟨?_, ?_, ?_, ?_⟩
  · intro hsec hbul
    constructor
    · intro hblank
      unfold parseStep
      simp only [h1, h2, h3, Bool.false_eq_true, if_false, hsec, hbul, if_pos, hblank]
    · intro hitem
      constructor
      · intro hcolon
        have hsome : ((splitFirstColon (pyStrip ((pyStrip line).drop 1))).2).isSome :=
          (colon_mem_iff_splitFirstColon _).mp hcolon
        cases hsp : (splitFirstColon (pyStrip ((pyStrip line).drop 1))).2 with
        | none => rw [hsp] at hsome; exact Bool.noConfusion hsome
        | some rest =>
          obtain ⟨heq, hnot⟩ := splitFirstColon_some hsp
          refine ⟨(splitFirstColon (pyStrip ((pyStrip line).drop 1))).1, rest, heq, hnot, ?_⟩
          unfold parseStep
          simp only [h1, h2, h3, Bool.false_eq_true, if_false, hsec, hbul, if_pos]
          rw [if_neg hitem]
          have hpair : splitFirstColon (pyStrip ((pyStrip line).drop 1))
              = ((splitFirstColon (pyStrip ((pyStrip line).drop 1))).1, some rest) := by
            rw [← hsp]
          rw [hpair]
      · intro hncolon
        have hnone : (splitFirstColon (pyStrip ((pyStrip line).drop 1))).2 = none := by
          cases hsp : (splitFirstColon (pyStrip ((pyStrip line).drop 1))).2 with
          | none => rfl
          | some rest =>
            exfalso
            obtain ⟨heq, _⟩ := splitFirstColon_some hsp
            exact hncolon (by rw [heq]; simp)
        unfold parseStep
        simp only [h1, h2, h3, Bool.false_eq_true, if_false, hsec, hbul, if_pos]
        rw [if_neg hitem]
        have hpair : splitFirstColon (pyStrip ((pyStrip line).drop 1))
            = ((splitFirstColon (pyStrip ((pyStrip line).drop 1))).1, none) := by
          rw [← hnone]
        rw [hpair]
  · intro hsec hbul
    unfold parseStep
    simp only [h1, h2, h3, Bool.false_eq_true, if_false, hsec, if_neg hbul]
  · intro hsec hbul
    unfold parseStep
    simp only [h1, h2, h3, Bool.false_eq_true, if_false, hsec, if_neg hbul]
  · intro hsec
    unfold parseStep
    simp only [h1, h2, h3, Bool.false_eq_true, if_false, hsec]

/-- C8 witness: the discard and blank-drop branches at concrete inputs. -/
theorem parseStep_content_witness :
    parseStep ⟨.nosec, [], [], []⟩ "stray".toList = ⟨.nosec, [], [], []⟩ ∧
    parseStep ⟨.debates, [], [], []⟩ "not a bullet".toList = ⟨.debates, [], [], []⟩ ∧
    parseStep ⟨.consensus, [], [], []⟩ "plain".toList = ⟨.consensus, [], [], []⟩ ∧
    parseStep ⟨.debates, [], [], []⟩ "• ".toList = ⟨.debates, [], [], []⟩ := by
  refine ⟨?_, ?_, ?_, ?_⟩
  · exact (parseStep_content ⟨.nosec, [], [], []⟩ _ (by decide)).2.2.2 rfl
  · exact (parseStep_content ⟨.debates, [], [], []⟩ _ (by decide)).2.1 rfl (by decide)
  · exact (parseStep_content ⟨.consensus, [], [], []⟩ _ (by decide)).2.2.1 rfl (by decide)
  · exact ((parseStep_content ⟨.debates, [], [], []⟩ _ (by decide)).1 rfl (by decide)).1 (by decide)

theorem chunkEvents_countP_eq_zero (m : String) (cs : List String) (p : Event → Bool)
    (hp : ∀ c, p (Event.model_chunk m c) = false) :
    (chunkEvents m cs).countP p = 0 := by
  rw [List.countP_eq_zero]
  intro e he
  obtain ⟨c, _, rfl⟩ := List.mem_map.mp he
  simp [hp c]

theorem getLast?_cons_append_singleton {α : Type} (a x : α) (l : List α) :
    (a :: (l ++ [x])).getLast? = some x := by
  rw [← List.cons_append]
  exact List.getLast?_concat _

/-- C1 counterexample: a council member whose producer invocation fails with a
non-2xx status (HTTP 500) emits no `model_error` at all — the client converts
the failure into an error-text chunk, the unit emits `model_complete`, and a
`ModelResponseResult` holding the error text is persisted. -/
theorem producer_failure_not_model_error_cx :
    ((memberRun "m1" (clientMember (.statusError 500) none 7)).1).countP Event.isModelError = 0 ∧
    ((memberRun "m1" (clientMember (.statusError 500) none 7)).1).countP
      Event.isModelComplete = 1 ∧
    (memberRun "m1" (clientMember (.statusError 500) none 7)).2
      = some ⟨"m1", "\n[Error: HTTP 500]", 1, 7⟩ := by
  decide

/-- C1 amended: the per-member unit emits `model_error` and records nothing
exactly when its body raises, which with the concrete (never-raising) client
happens only when the database write fails; producer transport failures are
yielded as error-text chunks, so the unit still emits `model_complete` (as its
final event, with no `model_error`) and persists a result containing the error
text. -/
theorem member_unit_error_reporting (model_id : String) (resp : WireResponse)
    (dbe : Option String) (t : Nat) :
    (dbe = none →
      ((memberRun model_id (clientMember resp dbe t)).1).countP Event.isModelError = 0 ∧
      ((memberRun model_id (clientMember resp dbe t)).1).getLast?
        = some (Event.model_complete model_id t (stream_chat_completion resp).length) ∧
      (memberRun model_id (clientMember resp dbe t)).2
        = some ⟨model_id, concatChunks (stream_chat_completion resp),
            (stream_chat_completion resp).length, t⟩) ∧
    (∀ msg, dbe = some msg →
      ((memberRun model_id (clientMember resp dbe t)).1).getLast?
        = some (Event.model_error model_id msg) ∧
      ((memberRun model_id (clientMember resp dbe t)).1).countP Event.isModelComplete = 0 ∧
      (memberRun model_id (clientMember resp dbe t)).2 = none) := by
  constructor
  · rintro rfl
    refine ⟨?_, ?_, rfl⟩
    · simp only [memberRun, clientMember, List.countP_cons, List.countP_append,
        chunkEvents_countP_eq_zero model_id _ Event.isModelError (fun c => rfl)]
      simp [Event.isModelError]
    · exact getLast?_cons_append_singleton _ _ _
  · rintro msg rfl
    refine ⟨getLast?_cons_append_singleton _ _ _, ?_, rfl⟩
    simp only [memberRun, clientMember, List.countP_cons, List.countP_append,
      chunkEvents_countP_eq_zero model_id _ Event.isModelComplete (fun c => rfl)]
    simp [Event.isModelComplete]

/-- C1 witness: the amended theorem applied at a 404 wire failure with a
healthy database, and at a mid-stream body with a failing database write. -/
theorem member_unit_error_reporting_witness :
    ((memberRun "m" (clientMember (.statusError 404) none 3)).2).isSome = true ∧
    ((memberRun "m" (clientMember (.statusError 404) none 3)).1).countP
      Event.isModelError = 0 ∧
    ((memberRun "m" (clientMember (.body [.dataContent "hi"]) (some "db down") 3)).1).getLast?
      = some (Event.model_error "m" "db down") ∧
    (memberRun "m" (clientMember (.body [.dataContent "hi"]) (some "db down") 3)).2 = none := by
  refine ⟨?_, ?_, ?_, ?_⟩
  · rw [((member_unit_error_reporting "m" (.statusError 404) none 3).1 rfl).2.2]
    rfl
  · exact ((member_unit_error_reporting "m" (.statusError 404) none 3).1 rfl).1
  · exact ((member_unit_error_reporting "m" (.body [.dataContent "hi"])
      (some "db down") 3).2 "db down" rfl).1
  · exact ((member_unit_error_reporting "m" (.body [.dataContent "hi"])
      (some "db down") 3).2 "db down" rfl).2.2

/-- C5: with fewer than 2 council members the debate emits exactly one `error`
event and nothing else — no `debate_start`, no session row, no response rows,
no synthesis row. -/
theorem council_size_validation (inp : DebateInput) (emitted : List Event)
    (h : inp.council_members.length < 2) :
    debateEvents inp emitted = [Event.error "Need at least 2 council members for debate"] ∧
    (debateStore inp).sessionCreated = false ∧
    (debateStore inp).responses = [] ∧
    (debateStore inp).synthesisSaved = none := by
  unfold debateEvents debateStore
  rw [if_pos h, if_pos h]
  exact ⟨rfl, rfl, rfl, rfl⟩

/-- C5 witness: a one-member council. -/
theorem council_size_validation_witness :
    debateEvents ⟨"q", ["solo"], "ch", [], 1, .ok ([], [], ""), none⟩ []
      = [Event.error "Need at least 2 council members for debate"] ∧
    (debateStore ⟨"q", ["solo"], "ch", [], 1, .ok ([], [], ""), none⟩).sessionCreated = false :=
  ⟨(council_size_validation _ [] (by decide)).1,
   (council_size_validation _ [] (by decide)).2.1⟩

/-- C2: `synthesis_start` is emitted iff at least 2 response rows were
persisted; with 0 or 1 the run ends in a single terminal `error` event and no
`synthesis_start` ever appears; with at least 2 (in particular exactly 2, all
others failed) synthesis proceeds. -/
theorem synthesis_threshold (inp : DebateInput) (emitted : List Event)
    (hcouncil : 2 ≤ inp.council_members.length)
    (hmerge : IsMerge (councilPhase inp.council_members inp.behaviors) emitted) :
    ((∃ ch, Event.synthesis_start ch ∈ debateEvents inp emitted) ↔
      2 ≤ (savedResponses inp.council_members inp.behaviors).length) ∧
    ((savedResponses inp.council_members inp.behaviors).length < 2 →
      (debateEvents inp emitted).countP Event.isErrorEvent = 1 ∧
      (debateEvents inp emitted).getLast?
        = some (Event.error "Not enough models responded successfully for synthesis") ∧
      ∀ ch, Event.synthesis_start ch ∉ debateEvents inp emitted) ∧
    (2 ≤ (savedResponses inp.council_members inp.behaviors).length →
      Event.synthesis_start inp.chairman ∈ debateEvents inp emitted) := by
  have hval : ¬ inp.council_members.length < 2 := Nat.not_lt.mpr hcouncil
  have hevs : debateEvents inp emitted
      = Event.debate_start inp.decision_id inp.query inp.council_members inp.chairman ::
        (emitted ++ debateTail inp) := by
    unfold debateEvents
    rw [if_neg hval]
    rfl
  have hmodel := merged_isModel hmerge
  have habort : (savedResponses inp.council_members inp.behaviors).length < 2 →
      (debateEvents inp emitted).countP Event.isErrorEvent = 1 ∧
      (debateEvents inp emitted).getLast?
        = some (Event.error "Not enough models responded successfully for synthesis") ∧
      ∀ ch, Event.synthesis_start ch ∉ debateEvents inp emitted := by
    intro hlt
    refine ⟨?_, ?_, ?_⟩
    · rw [hevs, debateTail_abort inp hlt, List.countP_cons, List.countP_append]
      have hzero : emitted.countP Event.isErrorEvent = 0 := by
        rw [List.countP_eq_zero]
        intro e he
        have := (event_model_excl (hmodel e he)).1
        simp [this]
      rw [hzero]
      simp [Event.isErrorEvent]
    · rw [hevs, debateTail_abort inp hlt]
      exact getLast?_cons_append_singleton _ _ _
    · intro ch hmem
      rw [hevs, debateTail_abort inp hlt] at hmem
      rcases List.mem_cons.mp hmem with heq | hmem
      · exact Event.noConfusion heq
      rcases List.mem_append.mp hmem with hmem | hmem
      · have := hmodel _ hmem
        simp [Event.isModelEvent, Event.modelId] at this
      · simp at hmem
  have hgo : 2 ≤ (savedResponses inp.council_members inp.behaviors).length →
      Event.synthesis_start inp.chairman ∈ debateEvents inp emitted := by
    intro hge
    obtain ⟨mid, heq, _⟩ := debateTail_go inp (Nat.not_lt.mpr hge)
    rw [hevs, heq]
    simp
  refine ⟨⟨?_, fun hge => ⟨inp.chairman, hgo hge⟩⟩, habort, hgo⟩
  rintro ⟨ch, hmem⟩
  by_contra hnge
  exact (habort (Nat.lt_of_not_le hnge)).2.2 ch hmem

/-- C2 witness: a council of three where exactly two members persist a row
(the third member's database write fails) reaches `synthesis_start`, and a
council of two where both writes fail ends in the single terminal error. -/
theorem synthesis_threshold_witness :
    Event.synthesis_start "ch" ∈ debateEvents
        ⟨"q", ["a", "b", "c"], "ch",
          [⟨.yields ["x"], none, 1⟩, ⟨.yields [], some "db", 1⟩, ⟨.yields ["y"], none, 1⟩],
          1, .ok ([], [], ""), none⟩
        (councilPhase ["a", "b", "c"]
          [⟨.yields ["x"], none, 1⟩, ⟨.yields [], some "db", 1⟩, ⟨.yields ["y"], none, 1⟩]).flatten ∧
    (debateEvents
        ⟨"q", ["a", "b"], "ch", [⟨.yields [], some "db", 1⟩, ⟨.yields [], some "db", 1⟩],
          1, .ok ([], [], ""), none⟩
        (councilPhase ["a", "b"]
          [⟨.yields [], some "db", 1⟩, ⟨.yields [], some "db", 1⟩]).flatten).countP
      Event.isErrorEvent = 1 := by
  constructor
  · exact (synthesis_threshold _ _ (by decide) (by simpa using isMerge_join _)).2.2 (by decide)
  · exact ((synthesis_threshold _ _ (by decide) (by simpa using isMerge_join _)).2.1
      (by decide)).1

/-- C9: when the synthesis attempt fails (the `generate_synthesis` call raises,
or the `add_synthesis` write raises), a `synthesis_error` event is emitted, no
synthesis row is persisted, and `debate_complete` with the session id is still
the final event; a synthesis row is persisted exactly when
`synthesis_complete` is emitted. -/
theorem synthesis_failure_not_terminal (inp : DebateInput) (emitted : List Event)
    (hcouncil : 2 ≤ inp.council_members.length)
    (hmerge : IsMerge (councilPhase inp.council_members inp.behaviors) emitted)
    (hsaved : 2 ≤ (savedResponses inp.council_members inp.behaviors).length) :
    (∀ e, inp.synthesisOutcome = .error e →
      Event.synthesis_error ("Synthesis failed: " ++ e) ∈ debateEvents inp emitted ∧
      (debateStore inp).synthesisSaved = none) ∧
    (∀ r e, inp.synthesisOutcome = .ok r → inp.synthesisDbError = some e →
      Event.synthesis_error ("Synthesis failed: " ++ e) ∈ debateEvents inp emitted ∧
      (debateStore inp).synthesisSaved = none) ∧
    ((debateStore inp).synthesisSaved.isSome = true ↔
      ∃ c d t, Event.synthesis_complete c d t ∈ debateEvents inp emitted) ∧
    (debateEvents inp emitted).getLast? = some (Event.debate_complete inp.decision_id) := by
  have hval : ¬ inp.council_members.length < 2 := Nat.not_lt.mpr hcouncil
  have hnlt : ¬ (savedResponses inp.council_members inp.behaviors).length < 2 :=
    Nat.not_lt.mpr hsaved
  have hevs : debateEvents inp emitted
      = Event.debate_start inp.decision_id inp.query inp.council_members inp.chairman ::
        (emitted ++ debateTail inp) := by
    unfold debateEvents
    rw [if_neg hval]
    rfl
  have hmodel := merged_isModel hmerge
  obtain ⟨mid, heq, hmid⟩ := debateTail_go inp hnlt
  have hmem_mid : mid ∈ debateEvents inp emitted := by
    rw [hevs, heq]
    simp
  have hshape : emitted ++ debateTail inp
      = (emitted ++ [Event.synthesis_start inp.chairman, mid])
          ++ [Event.debate_complete inp.decision_id] := by
    rw [heq]
    simp
  refine ⟨?_, ?_, ?_, ?_⟩
  · intro e hso
    rcases hmid with ⟨x, hx, rfl⟩ | ⟨x, y, hx, _, rfl⟩ | ⟨x, hx, _, _⟩
    · rw [hso] at hx
      obtain rfl : e = x := by exact (Except.error.inj hx)
      exact ⟨hmem_mid, by simp [debateStore, if_neg hval, if_neg hnlt, hso]⟩
    · rw [hso] at hx
      exact Except.noConfusion hx
    · rw [hso] at hx
      exact Except.noConfusion hx
  · intro r e hso hsde
    rcases hmid with ⟨x, hx, rfl⟩ | ⟨x, y, hx, hy, rfl⟩ | ⟨x, hx, hy, _⟩
    · rw [hso] at hx
      exact Except.noConfusion hx
    · rw [hso] at hx
      obtain rfl : x = r := by exact (Except.ok.inj hx.symm)
      rw [hsde] at hy
      obtain rfl : e = y := by exact Option.some.inj hy
      exact ⟨hmem_mid, by simp [debateStore, if_neg hval, if_neg hnlt, hso, hsde]⟩
    · rw [hso] at hx
      obtain rfl : x = r := by exact (Except.ok.inj hx.symm)
      rw [hsde] at hy
      exact Option.noConfusion hy
  · constructor
    · intro hsome
      rcases hmid with ⟨x, hx, rfl⟩ | ⟨x, y, hx, hy, rfl⟩ | ⟨x, hx, hy, rfl⟩
      · simp [debateStore, if_neg hval, if_neg hnlt, hx] at hsome
      · simp [debateStore, if_neg hval, if_neg hnlt, hx, hy] at hsome
      · exact ⟨x.1, x.2.1, x.2.2, hmem_mid⟩
    · rintro ⟨c, d, t, hmem⟩
      rw [hevs, heq] at hmem
      rcases List.mem_cons.mp hmem with hc | hmem
      · exact Event.noConfusion hc
      rcases List.mem_append.mp hmem with hmem | hmem
      · have := hmodel _ hmem
        simp [Event.isModelEvent, Event.modelId] at this
      rcases List.mem_cons.mp hmem with hc | hmem
      · exact Event.noConfusion hc
      rcases List.mem_cons.mp hmem with hc | hmem
      · rcases hmid with ⟨x, hx, rfl⟩ | ⟨x, y, hx, hy, rfl⟩ | ⟨x, hx, hy, rfl⟩
        · exact Event.noConfusion hc
        · exact Event.noConfusion hc
        · simp [debateStore, if_neg hval, if_neg hnlt, hx, hy]
      · simp at hmem
  · rw [hevs, hshape]
    exact getLast?_cons_append_singleton _ _ _

/-- C9 witness: two successful members, a failing chairman synthesis call. -/
theorem synthesis_failure_not_terminal_witness :
    Event.synthesis_error "Synthesis failed: boom" ∈ debateEvents
        ⟨"q", ["a", "b"], "ch", [⟨.yields ["x"], none, 1⟩, ⟨.yields ["y"], none, 1⟩],
          5, .error "boom", none⟩
        (councilPhase ["a", "b"] [⟨.yields ["x"], none, 1⟩, ⟨.yields ["y"], none, 1⟩]).flatten ∧
    (debateStore
        ⟨"q", ["a", "b"], "ch", [⟨.yields ["x"], none, 1⟩, ⟨.yields ["y"], none, 1⟩],
          5, .error "boom", none⟩).synthesisSaved = none ∧
    (debateEvents
        ⟨"q", ["a", "b"], "ch", [⟨.yields ["x"], none, 1⟩, ⟨.yields ["y"], none, 1⟩],
          5, .error "boom", none⟩
        (councilPhase ["a", "b"] [⟨.yields ["x"], none, 1⟩, ⟨.yields ["y"], none, 1⟩]).flatten).getLast?
      = some (Event.debate_complete 5) := by
  refine ⟨?_, ?_, ?_⟩
  · exact ((synthesis_failure_not_terminal _ _ (by decide) (by simpa using isMerge_join _)
      (by decide)).1 "boom" rfl).1
  · exact ((synthesis_failure_not_terminal _ _ (by decide) (by simpa using isMerge_join _)
      (by decide)).1 "boom" rfl).2
  · exact (synthesis_failure_not_terminal _ _ (by decide) (by simpa using isMerge_join _)
      (by decide)).2.2.2

theorem event_modelId_none {e : Event} (h : e.modelId = none) :
    e.isModelStart = false ∧ e.isModelEvent = false ∧ ∀ m, e.isFor m = false := by
  cases e <;> simp_all [Event.modelId, Event.isModelStart, Event.isModelEvent, Event.isFor]

/-- C4 counterexample: council member ids need not be distinct
(`["m", "m"]` passes validation), and then the events carrying id `"m"`
contain two `model_start`s — not the claimed pattern of exactly one. -/
theorem per_model_pattern_cx :
    2 ≤ (["m", "m"] : List String).length ∧
    IsMerge (councilPhase ["m", "m"] [⟨.yields [], none, 0⟩, ⟨.yields [], none, 0⟩])
      (councilPhase ["m", "m"] [⟨.yields [], none, 0⟩, ⟨.yields [], none, 0⟩]).flatten ∧
    ((debateEvents ⟨"q", ["m", "m"], "ch", [⟨.yields [], none, 0⟩, ⟨.yields [], none, 0⟩], 1,
        .ok ([], [], ""), none⟩
      (councilPhase ["m", "m"] [⟨.yields [], none, 0⟩, ⟨.yields [], none, 0⟩]).flatten).filter
        (Event.isFor "m")).countP Event.isModelStart = 2 := by
  refine ⟨by decide, by simpa using isMerge_join _, by decide⟩

/-- C4 amended: exactly N `model_start` events are emitted for a council of
size N; and when the council ids are distinct, the events carrying a given
model id are exactly that member's sequence: one `model_start`, its chunks,
then exactly one terminal event (`model_complete` or `model_error`), with no
event for that id after the terminal one and no second `model_start` or
`model_error`. -/
theorem model_event_pattern (inp : DebateInput) (emitted : List Event)
    (hcouncil : 2 ≤ inp.council_members.length)
    (hlen : inp.behaviors.length = inp.council_members.length)
    (hnodup : inp.council_members.Nodup)
    (hmerge : IsMerge (councilPhase inp.council_members inp.behaviors) emitted) :
    (debateEvents inp emitted).countP Event.isModelStart = inp.council_members.length ∧
    (∀ i m b, inp.council_members.get? i = some m → inp.behaviors.get? i = some b →
      ∃ chunks tl,
        (debateEvents inp emitted).filter (Event.isFor m)
          = Event.model_start m :: chunkEvents m chunks ++ [tl] ∧
        (tl = Event.model_complete m b.elapsed chunks.length ∨
          ∃ msg, tl = Event.model_error m msg) ∧
        (chunkEvents m chunks ++ [tl]).countP Event.isModelStart = 0 ∧
        (Event.model_start m :: chunkEvents m chunks ++ [tl]).countP Event.isModelError ≤ 1) := by
  have hval : ¬ inp.council_members.length < 2 := Nat.not_lt.mpr hcouncil
  have hevs : debateEvents inp emitted
      = Event.debate_start inp.decision_id inp.query inp.council_members inp.chairman ::
        (emitted ++ debateTail inp) := by
    unfold debateEvents
    rw [if_neg hval]
    rfl
  constructor
  · -- count of model_start events
    have hperm := hmerge.perm_flatten
    have hemit : emitted.countP Event.isModelStart = inp.council_members.length := by
      rw [hperm.countP_eq, List.countP_join]
      have hmaps : (councilPhase inp.council_members inp.behaviors).map
          (List.countP Event.isModelStart)
          = (inp.council_members.zip inp.behaviors).map (fun _ => 1) := by
        unfold councilPhase
        rw [List.map_map]
        exact List.map_eq_map_iff.mpr (fun p _ => memberRun_countP_start p.1 p.2)
      rw [hmaps]
      have hones : ∀ {β : Type} (l : List β), (l.map (fun _ => (1 : Nat))).sum = l.length := by
        intro β l
        induction l with
        | nil => rfl
        | cons x xs ih => simp [ih, Nat.add_comm]
      rw [hones, List.length_zip, hlen, Nat.min_self]
    have htail : (debateTail inp).countP Event.isModelStart = 0 := by
      rw [List.countP_eq_zero]
      intro e he
      have := (event_modelId_none (debateTail_no_model inp e he).1).1
      simp [this]
    rw [hevs, List.countP_cons, List.countP_append, hemit, htail]
    simp [Event.isModelStart]
  · -- per-id pattern under distinct ids
    intro i m b hm hb
    obtain ⟨chunks, tl, hshape, htl⟩ := memberRun_shape m b
    refine ⟨chunks, tl, ?_, htl, ?_, ?_⟩
    · -- the filtered outward sequence is exactly this member's run
      have hfilter_tail : (debateTail inp).filter (Event.isFor m) = [] := by
        rw [List.filter_eq_nil_iff]
        intro e he
        have := (event_modelId_none (debateTail_no_model inp e he).1).2.2 m
        simp [this]
      have hfilter_emitted : emitted.filter (Event.isFor m) = (memberRun m b).1 := by
        obtain ⟨rem, hint, hempty⟩ := hmerge
        have hint' := hint.filter (Event.isFor m)
        have hmerge' : IsMerge
            ((councilPhase inp.council_members inp.behaviors).map (List.filter (Event.isFor m)))
            (emitted.filter (Event.isFor m)) := by
          refine ⟨rem.map (List.filter (Event.isFor m)), hint', ?_⟩
          intro l hl
          obtain ⟨l', hl', rfl⟩ := List.mem_map.mp hl
          rw [hempty l' hl']
          rfl
        have hgeti : ((councilPhase inp.council_members inp.behaviors).map
            (List.filter (Event.isFor m))).get? i = some ((memberRun m b).1) := by
          rw [List.get?_map, councilPhase_get? _ _ i, hm, hb]
          have : ((memberRun m b).1).filter (Event.isFor m) = (memberRun m b).1 := by
            rw [List.filter_eq_self]
            intro e he
            have := memberRun_modelId e he
            simp [Event.isFor, this]
          simp [this]
        refine hmerge'.singleton_out i _ hgeti ?_
        intro j lj hji hgetj
        rw [List.get?_map] at hgetj
        cases hc : inp.council_members.get? j with
        | none =>
          rw [councilPhase_get? _ _ j, hc] at hgetj
          simp at hgetj
        | some mj =>
          cases hbj : inp.behaviors.get? j with
          | none =>
            rw [councilPhase_get? _ _ j, hc, hbj] at hgetj
            simp at hgetj
          | some bj =>
            rw [councilPhase_get? _ _ j, hc, hbj] at hgetj
            simp only [Option.bind_eq_bind, Option.some_bind, Option.map_some] at hgetj
            obtain rfl : lj = ((memberRun mj bj).1).filter (Event.isFor m) :=
              (Option.some.inj hgetj).symm
            have hne : mj ≠ m := by
              intro hc_eq
              subst hc_eq
              exact hji (list_nodup_get?_inj hnodup hc hm)
            rw [List.filter_eq_nil_iff]
            intro e he
            have hid := memberRun_modelId e he
            simp [Event.isFor, hid, hne]
      rw [hevs]
      rw [List.filter_cons_of_neg (by simp [Event.isFor, Event.modelId])]
      rw [List.filter_append, hfilter_tail, List.append_nil, hfilter_emitted, hshape]
    · -- no model_start among the chunks or the terminal
      rw [List.countP_append, chunkEvents_countP_eq_zero m chunks Event.isModelStart
        (fun c => rfl)]
      rcases htl with rfl | ⟨msg, rfl⟩ <;> simp [Event.isModelStart]
    · -- at most one model_error in the whole per-id sequence
      rcases htl with rfl | ⟨msg, rfl⟩ <;>
        simp [List.countP_cons, List.countP_append,
          chunkEvents_countP_eq_zero m chunks Event.isModelError (fun c => rfl),
          Event.isModelError]

/-- C4 witness: a distinct two-member council, one member succeeding and one
failing at the database write. -/
theorem model_event_pattern_witness :
    (debateEvents ⟨"q", ["a", "b"], "ch",
        [⟨.yields ["x"], none, 1⟩, ⟨.yields [], some "db", 1⟩], 1, .ok ([], [], ""), none⟩
      (councilPhase ["a", "b"]
        [⟨.yields ["x"], none, 1⟩, ⟨.yields [], some "db", 1⟩]).flatten).countP
      Event.isModelStart = 2 ∧
    ∃ chunks tl,
      ((debateEvents ⟨"q", ["a", "b"], "ch",
          [⟨.yields ["x"], none, 1⟩, ⟨.yields [], some "db", 1⟩], 1, .ok ([], [], ""), none⟩
        (councilPhase ["a", "b"]
          [⟨.yields ["x"], none, 1⟩, ⟨.yields [], some "db", 1⟩]).flatten).filter
        (Event.isFor "a"))
        = Event.model_start "a" :: chunkEvents "a" chunks ++ [tl] ∧
      (tl = Event.model_complete "a" 1 chunks.length ∨ ∃ msg, tl = Event.model_error "a" msg) ∧
      (chunkEvents "a" chunks ++ [tl]).countP Event.isModelStart = 0 ∧
      (Event.model_start "a" :: chunkEvents "a" chunks ++ [tl]).countP Event.isModelError ≤ 1 := by
  have h := model_event_pattern
    ⟨"q", ["a", "b"], "ch", [⟨.yields ["x"], none, 1⟩, ⟨.yields [], some "db", 1⟩], 1,
      .ok ([], [], ""), none⟩
    (councilPhase ["a", "b"] [⟨.yields ["x"], none, 1⟩, ⟨.yields [], some "db", 1⟩]).flatten
    (by decide) (by decide) (by decide) (by simpa using isMerge_join _)
  exact ⟨h.1, h.2 0 "a" ⟨.yields ["x"], none, 1⟩ rfl rfl⟩

theorem strictlyPrecedes_of_no_q (p q : Event → Prop) (evs : List Event)
    (hq : ∀ e ∈ evs, ¬ q e) : StrictlyPrecedes p q evs := by
  intro i j ei ej hi hj hpi hqj
  exact absurd hqj (hq ej (list_get?_mem hj))

/-- C3 counterexample: a debate that passes validation (two members) but in
which both members fail to persist (database write failures) produces — via an
actual exited run of the drain loop — an event sequence whose last event is
the terminal `error`, not `debate_complete`. -/
theorem event_order_claim_cx :
    DrainReaches
      (DrainState.init (councilPhase ["a", "b"]
        [⟨.yields [], some "db", 0⟩, ⟨.yields [], some "db", 0⟩]))
      ⟨(councilPhase ["a", "b"]
          [⟨.yields [], some "db", 0⟩, ⟨.yields [], some "db", 0⟩]).map (fun _ => []),
        [],
        (councilPhase ["a", "b"]
          [⟨.yields [], some "db", 0⟩, ⟨.yields [], some "db", 0⟩]).flatten, true⟩ ∧
    DrainState.Exited
      ⟨(councilPhase ["a", "b"]
          [⟨.yields [], some "db", 0⟩, ⟨.yields [], some "db", 0⟩]).map (fun _ => []),
        [],
        (councilPhase ["a", "b"]
          [⟨.yields [], some "db", 0⟩, ⟨.yields [], some "db", 0⟩]).flatten, true⟩ ∧
    2 ≤ (["a", "b"] : List String).length ∧
    (debateEvents
        ⟨"q", ["a", "b"], "ch", [⟨.yields [], some "db", 0⟩, ⟨.yields [], some "db", 0⟩], 1,
          .ok ([], [], ""), none⟩
        (councilPhase ["a", "b"]
          [⟨.yields [], some "db", 0⟩, ⟨.yields [], some "db", 0⟩]).flatten).getLast?
      = some (Event.error "Not enough models responded successfully for synthesis") ∧
    ((debateEvents
        ⟨"q", ["a", "b"], "ch", [⟨.yields [], some "db", 0⟩, ⟨.yields [], some "db", 0⟩], 1,
          .ok ([], [], ""), none⟩
        (councilPhase ["a", "b"]
          [⟨.yields [], some "db", 0⟩, ⟨.yields [], some "db", 0⟩]).flatten).getLast?).map
      Event.isDebateComplete = some false := by
  refine ⟨drain_reaches_flatten _, ⟨rfl, rfl⟩, by decide, by decide, by decide⟩

/-- C3 amended: for every exited run of the drain loop, every per-member task
has finished and the queue is empty at exit, each member's events appear in
the delivered sequence in order with none lost; in the resulting outward
sequence `debate_start` is first and strictly precedes all `model_*` events,
all `model_*` events strictly precede `synthesis_start`, `synthesis_start`
strictly precedes `synthesis_complete`/`synthesis_error`, and the last event
is `debate_complete` whenever at least 2 responses were persisted — on the
early-abort path (fewer than 2) the terminal `error` event is last instead. -/
theorem event_order_and_drain (inp : DebateInput) (s : DrainState)
    (hcouncil : 2 ≤ inp.council_members.length)
    (hreach : DrainReaches
      (DrainState.init (councilPhase inp.council_members inp.behaviors)) s)
    (hexit : s.Exited) :
    (∀ l ∈ s.pending, l = []) ∧ s.queue = [] ∧
    (∀ i li, (councilPhase inp.council_members inp.behaviors).get? i = some li →
      li.Sublist s.emitted) ∧
    (debateEvents inp s.emitted).head?
      = some (Event.debate_start inp.decision_id inp.query inp.council_members inp.chairman) ∧
    StrictlyPrecedes (fun e => e.isDebateStart = true) (fun e => e.isModelEvent = true)
      (debateEvents inp s.emitted) ∧
    StrictlyPrecedes (fun e => e.isModelEvent = true) (fun e => e.isSynthesisStart = true)
      (debateEvents inp s.emitted) ∧
    StrictlyPrecedes (fun e => e.isSynthesisStart = true) (fun e => e.isSynthesisTerminal = true)
      (debateEvents inp s.emitted) ∧
    (2 ≤ (savedResponses inp.council_members inp.behaviors).length →
      (debateEvents inp s.emitted).getLast? = some (Event.debate_complete inp.decision_id)) ∧
    ((savedResponses inp.council_members inp.behaviors).length < 2 →
      (debateEvents inp s.emitted).getLast?
        = some (Event.error "Not enough models responded successfully for synthesis")) := by
  obtain ⟨hmerge, hpend, hqueue⟩ := drain_exit_merge hreach hexit
  have hmodel := merged_isModel hmerge
  have hval : ¬ inp.council_members.length < 2 := Nat.not_lt.mpr hcouncil
  have hevs : debateEvents inp s.emitted
      = Event.debate_start inp.decision_id inp.query inp.council_members inp.chairman ::
        (s.emitted ++ debateTail inp) := by
    unfold debateEvents
    rw [if_neg hval]
    rfl
  have htail_nomodel := debateTail_no_model inp
  refine ⟨hpend, hqueue, fun i li hi => hmerge.sublist i li hi, ?_, ?_, ?_, ?_, ?_, ?_⟩
  · rw [hevs]
    rfl
  · -- debate_start strictly precedes model events
    rw [hevs]
    exact strictlyPrecedes_split _ _
      [Event.debate_start inp.decision_id inp.query inp.council_members inp.chairman]
      (s.emitted ++ debateTail inp)
      (by
        intro e he
        simp only [List.mem_singleton] at he
        subst he
        simp [Event.isModelEvent, Event.modelId])
      (by
        intro e he
        rcases List.mem_append.mp he with he | he
        · exact fun hds => by
            have := (event_model_excl (hmodel e he)).2.2.2.1
            rw [this] at hds
            exact Bool.noConfusion hds
        · exact fun hds => by
            have := (htail_nomodel e he).2
            rw [this] at hds
            exact Bool.noConfusion hds)
  · -- model events strictly precede synthesis_start
    rw [hevs]
    refine strictlyPrecedes_split _ _
      (Event.debate_start inp.decision_id inp.query inp.council_members inp.chairman ::
        s.emitted)
      (debateTail inp) ?_ ?_
    · intro e he
      rcases List.mem_cons.mp he with rfl | he
      · simp [Event.isSynthesisStart]
      · intro hss
        have := (event_model_excl (hmodel e he)).2.1
        rw [this] at hss
        exact Bool.noConfusion hss
    · intro e he
      intro hm
      have := (event_modelId_none (htail_nomodel e he).1).2.1
      rw [this] at hm
      exact Bool.noConfusion hm
  · -- synthesis_start strictly precedes the synthesis terminal events
    by_cases hlt : (savedResponses inp.council_members inp.behaviors).length < 2
    · apply strictlyPrecedes_of_no_q
      intro e he
      rw [hevs, debateTail_abort inp hlt] at he
      rcases List.mem_cons.mp he with rfl | he
      · simp [Event.isSynthesisTerminal]
      rcases List.mem_append.mp he with he | he
      · intro ht
        have := (event_model_excl (hmodel e he)).2.2.1
        rw [this] at ht
        exact Bool.noConfusion ht
      · simp only [List.mem_singleton] at he
        subst he
        simp [Event.isSynthesisTerminal]
    · obtain ⟨mid, heq, hmid⟩ := debateTail_go inp hlt
      have hsplit : debateEvents inp s.emitted
          = ((Event.debate_start inp.decision_id inp.query inp.council_members inp.chairman ::
              s.emitted) ++ [Event.synthesis_start inp.chairman])
            ++ (mid :: [Event.debate_complete inp.decision_id]) := by
        rw [hevs, heq]
        simp
      rw [hsplit]
      refine strictlyPrecedes_split _ _ _ _ ?_ ?_
      · intro e he
        rcases List.mem_append.mp he with he | he
        · rcases List.mem_cons.mp he with rfl | he
          · simp [Event.isSynthesisTerminal]
          · intro ht
            have := (event_model_excl (hmodel e he)).2.2.1
            rw [this] at ht
            exact Bool.noConfusion ht
        · simp only [List.mem_singleton] at he
          subst he
          simp [Event.isSynthesisTerminal]
      · intro e he
        rcases List.mem_cons.mp he with rfl | he
        · rcases hmid with ⟨x, _, rfl⟩ | ⟨x, y, _, _, rfl⟩ | ⟨x, _, _, rfl⟩ <;>
            simp [Event.isSynthesisStart]
        · simp only [List.mem_singleton] at he
          subst he
          simp [Event.isSynthesisStart]
  · -- at least 2 persisted: debate_complete is last
    intro hge
    obtain ⟨mid, heq, _⟩ := debateTail_go inp (Nat.not_lt.mpr hge)
    have hshape : debateEvents inp s.emitted
        = Event.debate_start inp.decision_id inp.query inp.council_members inp.chairman ::
          ((s.emitted ++ [Event.synthesis_start inp.chairman, mid])
            ++ [Event.debate_complete inp.decision_id]) := by
      rw [hevs, heq]
      simp
    rw [hshape]
    exact getLast?_cons_append_singleton _ _ _
  · -- fewer than 2 persisted: the terminal error is last
    intro hlt
    rw [hevs, debateTail_abort inp hlt]
    exact getLast?_cons_append_singleton _ _ _

/-- C3 witness: the amended theorem applied to an explicit exited drain run of
a two-member council that persists both rows. -/
theorem event_order_and_drain_witness :
    (debateEvents
        ⟨"q", ["a", "b"], "ch", [⟨.yields ["x"], none, 1⟩, ⟨.yields ["y"], none, 1⟩], 9,
          .ok ([], [], ""), none⟩
        (councilPhase ["a", "b"]
          [⟨.yields ["x"], none, 1⟩, ⟨.yields ["y"], none, 1⟩]).flatten).head?
      = some (Event.debate_start 9 "q" ["a", "b"] "ch") ∧
    (debateEvents
        ⟨"q", ["a", "b"], "ch", [⟨.yields ["x"], none, 1⟩, ⟨.yields ["y"], none, 1⟩], 9,
          .ok ([], [], ""), none⟩
        (councilPhase ["a", "b"]
          [⟨.yields ["x"], none, 1⟩, ⟨.yields ["y"], none, 1⟩]).flatten).getLast?
      = some (Event.debate_complete 9) := by
  have h := event_order_and_drain
    ⟨"q", ["a", "b"], "ch", [⟨.yields ["x"], none, 1⟩, ⟨.yields ["y"], none, 1⟩], 9,
      .ok ([], [], ""), none⟩
    ⟨(councilPhase ["a", "b"] [⟨.yields ["x"], none, 1⟩, ⟨.yields ["y"], none, 1⟩]).map
        (fun _ => []),
      [],
      (councilPhase ["a", "b"] [⟨.yields ["x"], none, 1⟩, ⟨.yields ["y"], none, 1⟩]).flatten,
      true⟩
    (by decide) (drain_reaches_flatten _) ⟨rfl, rfl⟩
  exact ⟨h.2.2.2.1, h.2.2.2.2.2.2.2.1 (by decide)⟩
